import Mathlib

/-!
Shallow embedding of the threshold-evaluation engine of `price_monitor.py`
(class `PriceMonitor`).  Prices, percent changes and times are modelled by
exact rationals (`ℚ`); times are minutes on an absolute axis, so Python's
`current_time - t <= timedelta(minutes=m)` becomes `now - t ≤ m`.
Python's `float('inf')` window in `LONG_TERM_THRESHOLDS` is modelled by
`none`, because `timedelta(minutes=float('inf'))` raises `OverflowError`
whenever it is evaluated; the scan result `ScanResult.overflowError`
records that exception.  A `ZeroDivisionError` from a zero stored baseline
and an `OverflowError` from the infinite window are both caught by the
per-coin `except` block of `check_price_movements` (line 448), which
appends and mutates nothing further for that coin.
-/

set_option maxRecDepth 100000

namespace PriceMonitor

/-- A threshold-table row: `{"percent": p, "minutes": m}`;
`minutes = none` models `float('inf')`. -/
structure Threshold where
  percent : ℚ
  minutes : Option ℚ
deriving DecidableEq

/-- `SHORT_TERM_THRESHOLDS` of `price_monitor.py` lines 27-32. -/
def SHORT_TERM_THRESHOLDS : List Threshold :=
  [⟨0.2, some 2⟩, ⟨0.5, some 5⟩, ⟨1.0, some 10⟩, ⟨2.0, some 30⟩]

/-- `LONG_TERM_THRESHOLDS` of `price_monitor.py` lines 34-40. -/
def LONG_TERM_THRESHOLDS : List Threshold :=
  [⟨3.0, some 60⟩, ⟨5.0, some 360⟩, ⟨8.0, some 720⟩, ⟨12.0, some 1440⟩, ⟨15.0, none⟩]

/-- One channel of a watchlist entry:
`{"last_price": ..., "last_notification_time": ...}`. -/
structure Channel where
  last_price : Option ℚ
  last_notification_time : ℚ
deriving DecidableEq

/-- One watchlist entry (the value of `watchlist[coin_id]`). -/
structure CoinInfo where
  short_term : Channel
  long_term : Channel
  name : String
  symbol : String
deriving DecidableEq

/-- The `"type"` field of a notification dict. -/
inductive NType
  | short_term
  | long_term
  | absolute
deriving DecidableEq

/-- A notification dict as built in `check_price_movements`
(`time_elapsed = none` for the absolute kind, which has no such key). -/
structure Notification where
  coin_name : String
  coin_symbol : String
  current_price : ℚ
  price_change : ℚ
  time_elapsed : Option ℚ
  ntype : NType
  coin_id : ℕ
deriving DecidableEq

/-- Result of walking a threshold table (lines 398-418 / 420-446):
either the first matching rule, no match, or the `OverflowError` raised by
`timedelta(minutes=float('inf'))` when the magnitude test of an
infinite-window rule succeeds. -/
inductive ScanResult
  | matched (t : Threshold) (elapsed : ℚ)
  | nomatch
  | overflowError
deriving DecidableEq

/-- Walk a threshold table in declared order.  Mirrors the Python loop:
the conjunction is short-circuited, so `timedelta(minutes=...)` (and hence
the `OverflowError` for an infinite window) is only evaluated when the
magnitude test already succeeded. -/
def scanThresholds (changePercent elapsed : ℚ) : List Threshold → ScanResult
  | [] => .nomatch
  | t :: rest =>
    if |changePercent| ≥ t.percent then
      match t.minutes with
      | some m =>
        if elapsed ≤ m then .matched t elapsed
        else scanThresholds changePercent elapsed rest
      | none => .overflowError
    else scanThresholds changePercent elapsed rest

/-- Everything the body of the per-coin loop (lines 347-449) contributes
for one priced coin: the (possibly mutated) watchlist entry, the
`watchlist_updated` contribution, the notifications appended to
`notifications`, and the candidate appended to `absolute_notifications`. -/
structure CoinOutcome where
  info : CoinInfo
  changed : Bool
  notifs : List Notification
  absCand : Option Notification
deriving DecidableEq

/-- The per-coin loop body of `check_price_movements` (lines 347-449) for a
coin that has a current price.  A `ZeroDivisionError` from a zero stored
baseline (lines 372-373) is raised before any list is appended or any
entry mutated, and is caught at line 448, so the coin is inert; an
`OverflowError` from the long-term scan is raised after the absolute check
and the short-term scan, so their effects persist. -/
def processCoin (now : ℚ) (cid : ℕ) (info : CoinInfo) (price : ℚ) : CoinOutcome :=
  if info.short_term.last_price = none ∨ info.long_term.last_price = none then
    { info := { info with short_term := ⟨some price, now⟩, long_term := ⟨some price, now⟩ },
      changed := true, notifs := [], absCand := none }
  else
    let sp := info.short_term.last_price.getD 0
    let lp := info.long_term.last_price.getD 0
    if sp = 0 ∨ lp = 0 then
      { info := info, changed := false, notifs := [], absCand := none }
    else
      let stChange := (price - sp) / sp * 100
      let ltChange := (price - lp) / lp * 100
      let absCand : Option Notification :=
        if |stChange| ≥ 2.0 then
          some ⟨info.name, info.symbol, price, stChange, none, .absolute, cid⟩
        else none
      let stElapsed := now - info.short_term.last_notification_time
      let ltElapsed := now - info.long_term.last_notification_time
      let stNotifs : List Notification :=
        match scanThresholds stChange stElapsed SHORT_TERM_THRESHOLDS with
        | .matched _ e => [⟨info.name, info.symbol, price, stChange, some e, .short_term, cid⟩]
        | _ => []
      match scanThresholds ltChange ltElapsed LONG_TERM_THRESHOLDS with
      | .matched _ e =>
        { info := { info with long_term := ⟨some price, now⟩ },
          changed := true,
          notifs := stNotifs ++ [⟨info.name, info.symbol, price, ltChange, some e, .long_term, cid⟩],
          absCand := absCand }
      | _ =>
        { info := info, changed := false, notifs := stNotifs, absCand := absCand }

/-- The accumulated effect of the per-coin loop over the whole watchlist. -/
structure ScanOut where
  watchlist : List (ℕ × CoinInfo)
  base : List Notification
  cands : List Notification
  changed : Bool
deriving DecidableEq

/-- The per-coin loop of `check_price_movements` (lines 346-449): a coin
absent from `current_prices` is skipped with its entry untouched; a priced
coin contributes its `processCoin` outcome.  `base` is the `notifications`
list as it stands before overlap resolution, `cands` is
`absolute_notifications`. -/
def scanPhase (now : ℚ) (prices : ℕ → Option ℚ) : List (ℕ × CoinInfo) → ScanOut
  | [] => ⟨[], [], [], false⟩
  | (cid, info) :: rest =>
    let s := scanPhase now prices rest
    match prices cid with
    | none => ⟨(cid, info) :: s.watchlist, s.base, s.cands, s.changed⟩
    | some price =>
      let o := processCoin now cid info price
      ⟨(cid, o.info) :: s.watchlist, o.notifs ++ s.base, o.absCand.toList ++ s.cands,
        o.changed || s.changed⟩

/-- The suppression test of line 464: is there a short-term notification
with the same `coin_symbol` in the current `notifications` list? -/
def suppressedBy (notifs : List Notification) (a : Notification) : Bool :=
  notifs.any fun n => decide (n.ntype = NType.short_term ∧ n.coin_symbol = a.coin_symbol)

/-- Overlap resolution (lines 459-467): each pending absolute candidate is
either dropped (when `suppressedBy` holds against the growing
`notifications` list) or appended to it. -/
def overlapFold : List Notification → List Notification → List Notification
  | notifs, [] => notifs
  | notifs, a :: rest =>
    if suppressedBy notifs a then overlapFold notifs rest
    else overlapFold (notifs ++ [a]) rest

/-- The condition of the final update pass (line 492):
`notification["type"] == "short_term" or notification["type"] == "absolute"`. -/
def shortClass (n : Notification) : Prop :=
  n.ntype = NType.short_term ∨ n.ntype = NType.absolute

instance shortClass.dec : DecidablePred shortClass := fun n =>
  if h : n.ntype = NType.short_term ∨ n.ntype = NType.absolute then .isTrue h else .isFalse h

/-- Python dict access `d.get(k)` on an association list. -/
def lookup : List (ℕ × CoinInfo) → ℕ → Option CoinInfo
  | [], _ => none
  | (k, v) :: rest, cid => if k = cid then some v else lookup rest cid

/-- `watchlist[coin_id]["short_term"] = {...}` as a map over the
association list (the dict has one entry per key). -/
def setShort : List (ℕ × CoinInfo) → ℕ → Channel → List (ℕ × CoinInfo)
  | [], _, _ => []
  | (k, v) :: rest, cid, ch =>
    (if k = cid then (k, { v with short_term := ch }) else (k, v)) :: setShort rest cid ch

/-- The final update pass (lines 490-499): every short-term or absolute
notification resets its coin's short-term channel to the notification's
price and the tick time. -/
def updatePhase (now : ℚ) : List (ℕ × CoinInfo) × Bool → List Notification →
    List (ℕ × CoinInfo) × Bool
  | acc, [] => acc
  | (wl, upd), n :: rest =>
    if shortClass n then
      updatePhase now (setShort wl n.coin_id ⟨some n.current_price, now⟩, true) rest
    else
      updatePhase now (wl, upd) rest

/-- What one evaluation tick returns and leaves behind. -/
structure TickResult where
  notifications : List Notification
  watchlist : List (ℕ × CoinInfo)
  updated : Bool
deriving DecidableEq

/-- The core of `check_price_movements` (lines 326-504) on an already
loaded watchlist and an already fetched price map: per-coin scan, overlap
resolution, short-term update pass.  (The early return for an empty
watchlist only short-circuits a computation that returns the same empty
result, and lives in the `check_price_movements` wrapper below.) -/
def checkPriceMovements (now : ℚ) (prices : ℕ → Option ℚ)
    (watchlist : List (ℕ × CoinInfo)) : TickResult :=
  let s := scanPhase now prices watchlist
  let notifs := overlapFold s.base s.cands
  let u := updatePhase now (s.watchlist, s.changed) notifs
  ⟨notifs, u.1, u.2⟩

/-- The persisted `watchlist.json` document as `load_watchlist` and
`add_coin` see it: missing file, empty file, unparseable JSON, or a parsed
object (already in the typed shape, one pair per key). -/
inductive StoredDoc
  | missing
  | empty
  | invalidJson
  | parsed (entries : List (ℕ × CoinInfo))
deriving DecidableEq

/-- `load_watchlist` (lines 191-244): a missing or empty file and a
`json.JSONDecodeError` all yield the empty watchlist. -/
def load_watchlist : StoredDoc → List (ℕ × CoinInfo)
  | .missing => []
  | .empty => []
  | .invalidJson => []
  | .parsed es => es

/-- What a call of `check_price_movements` returns and writes:
`write = none` when `save_watchlist` is not called. -/
structure CPMResult where
  notifications : List Notification
  write : Option (List (ℕ × CoinInfo))
deriving DecidableEq

/-- `check_price_movements` (lines 321-504) including the load of the
stored document, the early return on an empty watchlist (line 323), and
the conditional `save_watchlist` (line 501). -/
def check_price_movements (doc : StoredDoc) (now : ℚ) (prices : ℕ → Option ℚ) : CPMResult :=
  let watchlist := load_watchlist doc
  if watchlist.isEmpty then ⟨[], none⟩
  else
    let r := checkPriceMovements now prices watchlist
    ⟨r.notifications, if r.updated then some r.watchlist else none⟩

/-- A `tokens.json` / API metadata record. -/
structure TokenInfo where
  name : String
  symbol : String
deriving DecidableEq

/-- The possible outcomes of the `cryptocurrency/info` API call in
`add_coin`: an error status, a response without the requested id, or the
coin's metadata. -/
inductive InfoApiResp
  | apiError
  | notFound
  | found (d : TokenInfo)
deriving DecidableEq

/-- Python dict assignment `d[k] = v` on an association list. -/
def dictSet {α : Type} : List (ℕ × α) → ℕ → α → List (ℕ × α)
  | [], k, v => [(k, v)]
  | (k', v') :: rest, k, v =>
    if k' = k then (k, v) :: rest else (k', v') :: dictSet rest k v

/-- What one call of `add_coin` returns and does. -/
structure AddCoinResult where
  ok : Bool
  doc : StoredDoc
  tokens : List (ℕ × TokenInfo)
  apiCalled : Bool
  wroteWatchlist : Bool
  wroteTokens : Bool
deriving DecidableEq

/-- `add_coin` (lines 76-150).  When the stored document already has the
coin's key, the function returns `True` before the API request (lines
85-87); an unparseable document makes `json.load` raise, which the
`except` block turns into `False`; otherwise the API is consulted and, on
success, both `tokens.json` and `watchlist.json` are rewritten with the
new entry (null prices, `last_notification_time = now`). -/
def add_coin (doc : StoredDoc) (tokens : List (ℕ × TokenInfo)) (now : ℚ)
    (api : InfoApiResp) (cid : ℕ) : AddCoinResult :=
  match doc with
  | .invalidJson => ⟨false, doc, tokens, false, false, false⟩
  | .parsed es =>
    if cid ∈ es.map Prod.fst then ⟨true, doc, tokens, false, false, false⟩
    else add_coin.viaApi es doc tokens now api cid
  | _ => add_coin.viaApi [] doc tokens now api cid
where
  /-- Lines 89-146: the path taken when the coin is not yet watched. -/
  viaApi (es : List (ℕ × CoinInfo)) (doc : StoredDoc) (tokens : List (ℕ × TokenInfo))
      (now : ℚ) (api : InfoApiResp) (cid : ℕ) : AddCoinResult :=
    match api with
    | .apiError => ⟨false, doc, tokens, true, false, false⟩
    | .notFound => ⟨false, doc, tokens, true, false, false⟩
    | .found d =>
      let entry : CoinInfo := ⟨⟨none, now⟩, ⟨none, now⟩, d.name, d.symbol⟩
      ⟨true, .parsed (dictSet es cid entry), dictSet tokens cid d, true, true, true⟩

/-! ### Concrete inputs used by counterexamples and witnesses -/

/-- Scenario A of the spec: short = long = 100, last alert one minute ago,
current price 102. -/
def scenA_info : CoinInfo := ⟨⟨some 100, 59⟩, ⟨some 100, 59⟩, "Asset X", "X"⟩

def scenA_wl : List (ℕ × CoinInfo) := [(1, scenA_info)]

def scenA_prices : ℕ → Option ℚ := fun cid => if cid = 1 then some 102 else none

/-- Two distinct assets sharing the ticker symbol `X`: coin 1 is about to
fire a short-term alert, coin 2 only the absolute rule (its short elapsed
60 m exceeds every short window; its long change is zero). -/
def cexC1_wl : List (ℕ × CoinInfo) :=
  [(1, ⟨⟨some 100, 59⟩, ⟨some 100, 59⟩, "Coin One", "X"⟩),
   (2, ⟨⟨some 100, 0⟩, ⟨some 103, 59⟩, "Coin Two", "X"⟩)]

def cexC1_prices : ℕ → Option ℚ := fun cid =>
  if cid = 1 then some 102 else if cid = 2 then some 103 else none

/-- A +20 % long-term move whose elapsed time (2000 m) exceeds every
finite long-term window, reaching the (15 %, ∞) rule. -/
def c3_info : CoinInfo := ⟨⟨some 100, 1000⟩, ⟨some 100, 1000⟩, "Asset B", "B"⟩

def c5_info : CoinInfo := ⟨⟨none, 2⟩, ⟨none, 2⟩, "Asset Z", "Z"⟩

def c5_prices : ℕ → Option ℚ := fun cid => if cid = 3 then some 50 else none

def c6_info : CoinInfo := ⟨⟨some 0, 5⟩, ⟨some 100, 5⟩, "Asset V", "V"⟩

def c6_prices : ℕ → Option ℚ := fun cid => if cid = 4 then some 7 else none

def c7_info : CoinInfo := ⟨⟨some 11, 5⟩, ⟨some 12, 6⟩, "Asset U", "U"⟩

def c8_wl : List (ℕ × CoinInfo) :=
  [(5, ⟨⟨some 100, 59⟩, ⟨some 100, 59⟩, "Asset W", "W"⟩)]

def c8_prices : ℕ → Option ℚ := fun cid => if cid = 5 then some 102 else none

def c8_notif : Notification := ⟨"Asset W", "W", 102, 2, some 1, NType.short_term, 5⟩

def c9_entry : CoinInfo := ⟨⟨some 3, 1⟩, ⟨some 4, 1⟩, "Asset T", "T"⟩

/-! ### Lemmas about the threshold scan -/

/-- The matching condition of §4.1: the magnitude test together with the
window test (only rules with a finite window can satisfy it). -/
def ruleHit (changePercent elapsed : ℚ) (t : Threshold) : Prop :=
  |changePercent| ≥ t.percent ∧ ∃ m, t.minutes = some m ∧ elapsed ≤ m

instance ruleHit.dec (c e : ℚ) (t : Threshold) : Decidable (ruleHit c e t) :=
  match ht : t.minutes with
  | some m => decidable_of_iff (|c| ≥ t.percent ∧ e ≤ m) (by simp [ruleHit, ht])
  | none => .isFalse (by simp [ruleHit, ht])

/-- On a table whose windows are all finite, the scan returns exactly the
first rule (in declared order) whose magnitude and window tests both
pass. -/
theorem scanThresholds_eq_find (c e : ℚ) (rules : List Threshold)
    (h : ∀ t ∈ rules, t.minutes ≠ none) :
    scanThresholds c e rules =
      match rules.find? (fun t => decide (ruleHit c e t)) with
      | some t => .matched t e
      | none => .nomatch := by
  induction rules with
  | nil => simp [scanThresholds]
  | cons t rest ih =>
    obtain ⟨m, hm⟩ : ∃ m, t.minutes = some m := by
      cases hmt : t.minutes with
      | none => exact absurd hmt (h t (by simp))
      | some m => exact ⟨m, rfl⟩
    have hrest : ∀ t' ∈ rest, t'.minutes ≠ none := fun t' ht' => h t' (by simp [ht'])
    by_cases h1 : |c| ≥ t.percent
    · by_cases h2 : e ≤ m
      · have hhit : ruleHit c e t := ⟨h1, m, hm, h2⟩
        simp [scanThresholds, h1, hm, h2, List.find?_cons_of_pos, hhit]
      · have hhit : ¬ ruleHit c e t := by
          rintro ⟨-, m', hm', hle⟩
          rw [hm] at hm'
          exact h2 (by simpa [Option.some_inj.mp hm'] using hle)
        have hneg : List.find? (fun t => decide (ruleHit c e t)) (t :: rest) =
            List.find? (fun t => decide (ruleHit c e t)) rest :=
          List.find?_cons_of_neg _ (fun hc => hhit (of_decide_eq_true hc))
        simp only [scanThresholds, h1, if_pos, hm, h2, if_neg, ih hrest, hneg]
        simp
    · have hhit : ¬ ruleHit c e t := fun hh => h1 hh.1
      have hneg : List.find? (fun t => decide (ruleHit c e t)) (t :: rest) =
          List.find? (fun t => decide (ruleHit c e t)) rest :=
        List.find?_cons_of_neg _ (fun hc => hhit (of_decide_eq_true hc))
      simp only [scanThresholds, h1, if_neg, ih hrest, hneg]
      simp

/-! ### Lemmas about `processCoin` -/

theorem processCoin_mem_notifs {now : ℚ} {cid : ℕ} {info : CoinInfo} {price : ℚ}
    {n : Notification} (hn : n ∈ (processCoin now cid info price).notifs) :
    n.coin_id = cid ∧ n.coin_symbol = info.symbol ∧ n.current_price = price ∧
      (n.ntype = NType.short_term ∨ n.ntype = NType.long_term) := by
  unfold processCoin at hn
  split at hn
  · simp at hn
  · simp only at hn
    split at hn
    · simp at hn
    · split at hn
      · simp only [List.mem_append] at hn
        rcases hn with hn | hn
        · split at hn
          · simp only [List.mem_singleton] at hn
            subst hn
            exact ⟨rfl, rfl, rfl, Or.inl rfl⟩
          · simp at hn
        · simp only [List.mem_singleton] at hn
          subst hn
          exact ⟨rfl, rfl, rfl, Or.inr rfl⟩
      · split at hn
        · simp only [List.mem_singleton] at hn
          subst hn
          exact ⟨rfl, rfl, rfl, Or.inl rfl⟩
        · simp at hn

theorem processCoin_absCand_eq_some {now : ℚ} {cid : ℕ} {info : CoinInfo} {price : ℚ}
    {a : Notification} (ha : (processCoin now cid info price).absCand = some a) :
    a.coin_id = cid ∧ a.coin_symbol = info.symbol ∧ a.current_price = price ∧
      a.ntype = NType.absolute := by
  unfold processCoin at ha
  split at ha
  · simp at ha
  · simp only at ha
    split at ha
    · simp at ha
    · split at ha <;>
      · simp only at ha
        split at ha
        · rw [Option.some_inj] at ha
          subst ha
          exact ⟨rfl, rfl, rfl, rfl⟩
        · simp at ha

/-- The initialization step (lines 359-367): a null baseline on either
channel makes the tick baseline both channels at the current price and
`now`, mark the state changed, and skip every check for this coin. -/
theorem processCoin_init (now : ℚ) (cid : ℕ) {info : CoinInfo} (price : ℚ)
    (h : info.short_term.last_price = none ∨ info.long_term.last_price = none) :
    processCoin now cid info price =
      { info := { info with short_term := ⟨some price, now⟩, long_term := ⟨some price, now⟩ },
        changed := true, notifs := [], absCand := none } := by
  unfold processCoin
  rw [if_pos h]

/-- A zero stored baseline (the `ZeroDivisionError` of lines 372-373,
caught at line 448) leaves the coin inert. -/
theorem processCoin_zero (now : ℚ) (cid : ℕ) {info : CoinInfo} (price : ℚ) {sp lp : ℚ}
    (hs : info.short_term.last_price = some sp) (hl : info.long_term.last_price = some lp)
    (hz : sp = 0 ∨ lp = 0) :
    processCoin now cid info price = { info := info, changed := false, notifs := [], absCand := none } := by
  unfold processCoin
  rw [if_neg (by simp [hs, hl]), hs, hl]
  simp only [Option.getD_some]
  rw [if_pos hz]

theorem processCoin_isSome (now : ℚ) (cid : ℕ) (info : CoinInfo) (price : ℚ) :
    ((processCoin now cid info price).info.short_term.last_price).isSome ∧
      ((processCoin now cid info price).info.long_term.last_price).isSome := by
  by_cases h1 : info.short_term.last_price = none ∨ info.long_term.last_price = none
  · rw [processCoin_init now cid price h1]
    simp
  · push_neg at h1
    obtain ⟨sp, hs⟩ := Option.ne_none_iff_exists'.mp h1.1
    obtain ⟨lp, hl⟩ := Option.ne_none_iff_exists'.mp h1.2
    unfold processCoin
    rw [if_neg (by simp [hs, hl]), hs, hl]
    simp only [Option.getD_some]
    split
    · simp [hs, hl]
    · split
      · simp [hs]
      · simp [hs, hl]

/-- On the normal path, the short-term notifications a coin contributes
are exactly what the short-term table scan produces. -/
theorem processCoin_shortFilter {now : ℚ} {cid : ℕ} {info : CoinInfo} {price sp lp : ℚ}
    (hs : info.short_term.last_price = some sp) (hl : info.long_term.last_price = some lp)
    (hsp : sp ≠ 0) (hlp : lp ≠ 0) :
    (processCoin now cid info price).notifs.filter (fun n => decide (n.ntype = NType.short_term)) =
      (match scanThresholds ((price - sp) / sp * 100)
          (now - info.short_term.last_notification_time) SHORT_TERM_THRESHOLDS with
      | .matched _ e =>
        [⟨info.name, info.symbol, price, (price - sp) / sp * 100, some e, NType.short_term, cid⟩]
      | _ => []) := by
  unfold processCoin
  rw [if_neg (by simp [hs, hl]), hs, hl]
  simp only [Option.getD_some]
  rw [if_neg (by simp [hsp, hlp])]
  split
  · split <;> simp
  · split <;> simp

/-- A long-term notification is only contributed together with the
immediate long-baseline reset of lines 441-444. -/
theorem processCoin_mem_long {now : ℚ} {cid : ℕ} {info : CoinInfo} {price : ℚ}
    {n : Notification} (hn : n ∈ (processCoin now cid info price).notifs)
    (hty : n.ntype = NType.long_term) :
    (processCoin now cid info price).info.long_term = ⟨some price, now⟩ := by
  unfold processCoin at hn ⊢
  split at hn
  · simp at hn
  · rename_i h1
    rw [if_neg h1]
    simp only at hn ⊢
    split at hn
    · simp at hn
    · rename_i h2
      rw [if_neg h2]
      split at hn
      · rfl
      · exfalso
        split at hn
        · simp only [List.mem_singleton] at hn
          subst hn
          simp at hty
        · simp at hn

/-- At most one short-term-class notification per coin comes out of the
per-coin loop body. -/
theorem processCoin_shortClass_le_one (now : ℚ) (cid : ℕ) (info : CoinInfo) (price : ℚ) :
    ((processCoin now cid info price).notifs.filter (fun n => decide (shortClass n))).length ≤ 1 := by
  unfold processCoin
  split
  · simp
  · simp only
    split
    · simp
    · split
      · split <;> simp [shortClass]
      · split <;> simp [shortClass]

/-! ### Lemmas about the per-coin loop over the watchlist -/

theorem scanPhase_cons_none {now : ℚ} {prices : ℕ → Option ℚ} {cid : ℕ} {info : CoinInfo}
    {rest : List (ℕ × CoinInfo)} (h : prices cid = none) :
    scanPhase now prices ((cid, info) :: rest) =
      ⟨(cid, info) :: (scanPhase now prices rest).watchlist, (scanPhase now prices rest).base,
        (scanPhase now prices rest).cands, (scanPhase now prices rest).changed⟩ := by
  conv_lhs => unfold scanPhase
  rw [h]

theorem scanPhase_cons_some {now : ℚ} {prices : ℕ → Option ℚ} {cid : ℕ} {info : CoinInfo}
    {rest : List (ℕ × CoinInfo)} {price : ℚ} (h : prices cid = some price) :
    scanPhase now prices ((cid, info) :: rest) =
      ⟨(cid, (processCoin now cid info price).info) :: (scanPhase now prices rest).watchlist,
        (processCoin now cid info price).notifs ++ (scanPhase now prices rest).base,
        (processCoin now cid info price).absCand.toList ++ (scanPhase now prices rest).cands,
        (processCoin now cid info price).changed || (scanPhase now prices rest).changed⟩ := by
  conv_lhs => unfold scanPhase
  rw [h]

theorem scanPhase_keys (now : ℚ) (prices : ℕ → Option ℚ) (wl : List (ℕ × CoinInfo)) :
    (scanPhase now prices wl).watchlist.map Prod.fst = wl.map Prod.fst := by
  induction wl with
  | nil => rfl
  | cons e rest ih =>
    obtain ⟨cid, info⟩ := e
    unfold scanPhase
    cases h : prices cid <;> simp [h, ih]

theorem scanPhase_append (now : ℚ) (prices : ℕ → Option ℚ) (l1 l2 : List (ℕ × CoinInfo)) :
    scanPhase now prices (l1 ++ l2) =
      ⟨(scanPhase now prices l1).watchlist ++ (scanPhase now prices l2).watchlist,
       (scanPhase now prices l1).base ++ (scanPhase now prices l2).base,
       (scanPhase now prices l1).cands ++ (scanPhase now prices l2).cands,
       (scanPhase now prices l1).changed || (scanPhase now prices l2).changed⟩ := by
  induction l1 with
  | nil => rfl
  | cons e rest ih =>
    obtain ⟨cid, info⟩ := e
    rw [List.cons_append]
    cases h : prices cid with
    | none =>
      rw [scanPhase_cons_none h, scanPhase_cons_none h, ih]
      simp
    | some price =>
      rw [scanPhase_cons_some h, scanPhase_cons_some h, ih]
      simp [Bool.or_assoc]

theorem scanPhase_mem_base {now : ℚ} {prices : ℕ → Option ℚ} {wl : List (ℕ × CoinInfo)}
    {n : Notification} (hn : n ∈ (scanPhase now prices wl).base) :
    n.coin_id ∈ wl.map Prod.fst ∧ prices n.coin_id = some n.current_price ∧
      (n.ntype = NType.short_term ∨ n.ntype = NType.long_term) := by
  induction wl with
  | nil => simp [scanPhase] at hn
  | cons e rest ih =>
    obtain ⟨cid, info⟩ := e
    unfold scanPhase at hn
    cases h : prices cid with
    | none =>
      rw [h] at hn
      have := ih hn
      exact ⟨by simp [this.1], this.2⟩
    | some price =>
      rw [h] at hn
      simp only [List.mem_append] at hn
      rcases hn with hn | hn
      · obtain ⟨hid, -, hpr, hty⟩ := processCoin_mem_notifs hn
        refine ⟨by simp [hid], ?_, hty⟩
        rw [hid, h, hpr]
      · have := ih hn
        exact ⟨by simp [this.1], this.2⟩

theorem scanPhase_mem_cands {now : ℚ} {prices : ℕ → Option ℚ} {wl : List (ℕ × CoinInfo)}
    {n : Notification} (hn : n ∈ (scanPhase now prices wl).cands) :
    n.coin_id ∈ wl.map Prod.fst ∧ prices n.coin_id = some n.current_price ∧
      n.ntype = NType.absolute := by
  induction wl with
  | nil => simp [scanPhase] at hn
  | cons e rest ih =>
    obtain ⟨cid, info⟩ := e
    unfold scanPhase at hn
    cases h : prices cid with
    | none =>
      rw [h] at hn
      have := ih hn
      exact ⟨by simp [this.1], this.2⟩
    | some price =>
      rw [h] at hn
      simp only [List.mem_append, Option.mem_toList, Option.mem_def] at hn
      rcases hn with hn | hn
      · obtain ⟨hid, -, hpr, hty⟩ := processCoin_absCand_eq_some hn
        refine ⟨by simp [hid], ?_, hty⟩
        rw [hid, h, hpr]
      · have := ih hn
        exact ⟨by simp [this.1], this.2⟩

theorem scanPhase_lookup (now : ℚ) (prices : ℕ → Option ℚ) (wl : List (ℕ × CoinInfo)) (cid : ℕ) :
    lookup (scanPhase now prices wl).watchlist cid =
      (lookup wl cid).map fun info =>
        match prices cid with
        | some price => (processCoin now cid info price).info
        | none => info := by
  induction wl with
  | nil => rfl
  | cons e rest ih =>
    obtain ⟨k, info⟩ := e
    unfold scanPhase
    by_cases hk : k = cid
    · subst hk
      cases h : prices k <;> simp [lookup, h, ih]
    · cases h : prices k <;> simp [lookup, hk, ih]

theorem scanPhase_isSome {now : ℚ} {prices : ℕ → Option ℚ} {wl : List (ℕ × CoinInfo)}
    {e : ℕ × CoinInfo} (he : e ∈ (scanPhase now prices wl).watchlist) {p : ℚ}
    (hp : prices e.1 = some p) :
    (e.2.short_term.last_price).isSome ∧ (e.2.long_term.last_price).isSome := by
  induction wl with
  | nil => simp [scanPhase] at he
  | cons x rest ih =>
    obtain ⟨cid, info⟩ := x
    unfold scanPhase at he
    cases h : prices cid with
    | none =>
      rw [h] at he
      simp only [List.mem_cons] at he
      rcases he with he | he
      · subst he
        rw [hp] at h
        exact absurd h (by simp)
      · exact ih he
    | some price =>
      rw [h] at he
      simp only [List.mem_cons] at he
      rcases he with he | he
      · subst he
        exact processCoin_isSome now cid info price
      · exact ih he

theorem lookup_isSome_of_mem {wl : List (ℕ × CoinInfo)} {cid : ℕ}
    (h : cid ∈ wl.map Prod.fst) : (lookup wl cid).isSome := by
  induction wl with
  | nil => simp at h
  | cons e rest ih =>
    obtain ⟨k, info⟩ := e
    by_cases hk : k = cid
    · simp [lookup, hk]
    · simp only [List.map_cons, List.mem_cons] at h
      rcases h with h | h
      · exact absurd h.symm hk
      · simpa [lookup, hk] using ih h

theorem scanPhase_base_filter (now : ℚ) (prices : ℕ → Option ℚ) {wl : List (ℕ × CoinInfo)}
    (hnd : (wl.map Prod.fst).Nodup) (cid : ℕ) :
    (scanPhase now prices wl).base.filter (fun n => decide (n.coin_id = cid)) =
      match lookup wl cid, prices cid with
      | some info, some price => (processCoin now cid info price).notifs
      | _, _ => [] := by
  induction wl with
  | nil => simp [scanPhase, lookup]
  | cons e rest ih =>
    obtain ⟨k, info⟩ := e
    simp only [List.map_cons, List.nodup_cons] at hnd
    unfold scanPhase
    by_cases hk : k = cid
    · subst hk
      have hnil : (scanPhase now prices rest).base.filter (fun n => decide (n.coin_id = k)) = [] := by
        rw [List.filter_eq_nil_iff]
        intro n hn
        have := (scanPhase_mem_base hn).1
        simp only [decide_eq_true_eq]
        intro hEq
        exact hnd.1 (hEq ▸ this)
      cases h : prices k with
      | none => simp [h, lookup, hnil]
      | some price =>
        have hall : (processCoin now k info price).notifs.filter
            (fun n => decide (n.coin_id = k)) = (processCoin now k info price).notifs := by
          rw [List.filter_eq_self]
          intro n hn
          simp [(processCoin_mem_notifs hn).1]
        simp [h, lookup, List.filter_append, hnil, hall]
    · cases h : prices k with
      | none => simpa [h, lookup, hk] using ih hnd.2
      | some price =>
        have hnone : (processCoin now k info price).notifs.filter
            (fun n => decide (n.coin_id = cid)) = [] := by
          rw [List.filter_eq_nil_iff]
          intro n hn
          simp [(processCoin_mem_notifs hn).1, hk]
        simp only [h, lookup, hk, if_neg, List.filter_append, hnone, List.nil_append]
        exact ih hnd.2

theorem scanPhase_cands_filter (now : ℚ) (prices : ℕ → Option ℚ) {wl : List (ℕ × CoinInfo)}
    (hnd : (wl.map Prod.fst).Nodup) (cid : ℕ) :
    (scanPhase now prices wl).cands.filter (fun n => decide (n.coin_id = cid)) =
      match lookup wl cid, prices cid with
      | some info, some price => (processCoin now cid info price).absCand.toList
      | _, _ => [] := by
  induction wl with
  | nil => simp [scanPhase, lookup]
  | cons e rest ih =>
    obtain ⟨k, info⟩ := e
    simp only [List.map_cons, List.nodup_cons] at hnd
    unfold scanPhase
    by_cases hk : k = cid
    · subst hk
      have hnil : (scanPhase now prices rest).cands.filter (fun n => decide (n.coin_id = k)) = [] := by
        rw [List.filter_eq_nil_iff]
        intro n hn
        have := (scanPhase_mem_cands hn).1
        simp only [decide_eq_true_eq]
        intro hEq
        exact hnd.1 (hEq ▸ this)
      cases h : prices k with
      | none => simp [h, lookup, hnil]
      | some price =>
        have hall : ((processCoin now k info price).absCand.toList).filter
            (fun n => decide (n.coin_id = k)) = (processCoin now k info price).absCand.toList := by
          rw [List.filter_eq_self]
          intro n hn
          simp only [Option.mem_toList, Option.mem_def] at hn
          simp [(processCoin_absCand_eq_some hn).1]
        simp [h, lookup, List.filter_append, hnil, hall]
    · cases h : prices k with
      | none => simpa [h, lookup, hk] using ih hnd.2
      | some price =>
        have hnone : ((processCoin now k info price).absCand.toList).filter
            (fun n => decide (n.coin_id = cid)) = [] := by
          rw [List.filter_eq_nil_iff]
          intro n hn
          simp only [Option.mem_toList, Option.mem_def] at hn
          simp [(processCoin_absCand_eq_some hn).1, hk]
        simp only [h, lookup, hk, if_neg, List.filter_append, hnone, List.nil_append]
        exact ih hnd.2

/-! ### Lemmas about overlap resolution -/

theorem suppressedBy_append_absolute {l : List Notification} {c : Notification}
    (hc : c.ntype = NType.absolute) (a : Notification) :
    suppressedBy (l ++ [c]) a = suppressedBy l a := by
  simp [suppressedBy, List.any_append, hc]

/-- Because every pending candidate is of the absolute kind, promoting a
candidate never changes the suppression test of the remaining candidates,
so the second pass is equivalently: append the candidates that are not
suppressed by the pre-overlap notification list. -/
theorem overlapFold_eq {cands : List Notification} (base : List Notification)
    (h : ∀ c ∈ cands, c.ntype = NType.absolute) :
    overlapFold base cands = base ++ cands.filter fun a => !suppressedBy base a := by
  induction cands generalizing base with
  | nil => simp [overlapFold]
  | cons c rest ih =>
    have hc := h c (by simp)
    have hrest : ∀ x ∈ rest, x.ntype = NType.absolute := fun x hx => h x (by simp [hx])
    unfold overlapFold
    by_cases hs : suppressedBy base c
    · rw [if_pos hs, ih base hrest]
      simp [List.filter_cons, hs]
    · rw [if_neg hs, ih (base ++ [c]) hrest]
      have hsup : ∀ a, suppressedBy (base ++ [c]) a = suppressedBy base a := fun a =>
        suppressedBy_append_absolute hc a
      simp [List.filter_cons, hs, hsup, List.append_assoc]

/-- The tick's returned notification list: the scan-phase notifications
followed by the non-suppressed absolute candidates. -/
theorem checkPriceMovements_notifications (now : ℚ) (prices : ℕ → Option ℚ)
    (wl : List (ℕ × CoinInfo)) :
    (checkPriceMovements now prices wl).notifications =
      (scanPhase now prices wl).base ++
        (scanPhase now prices wl).cands.filter
          (fun a => !suppressedBy (scanPhase now prices wl).base a) := by
  show overlapFold (scanPhase now prices wl).base (scanPhase now prices wl).cands = _
  exact overlapFold_eq _ fun c hc => (scanPhase_mem_cands hc).2.2

/-! ### Lemmas about the final short-term update pass -/

theorem setShort_keys (wl : List (ℕ × CoinInfo)) (cid : ℕ) (ch : Channel) :
    (setShort wl cid ch).map Prod.fst = wl.map Prod.fst := by
  induction wl with
  | nil => rfl
  | cons e rest ih =>
    obtain ⟨k, info⟩ := e
    show ((if k = cid then (k, { info with short_term := ch }) else (k, info)) ::
        setShort rest cid ch).map Prod.fst = _
    by_cases hk : k = cid
    · rw [if_pos hk]
      simp [ih]
    · rw [if_neg hk]
      simp [ih]

theorem lookup_setShort_ne {wl : List (ℕ × CoinInfo)} {c cid : ℕ} (ch : Channel)
    (h : c ≠ cid) : lookup (setShort wl c ch) cid = lookup wl cid := by
  induction wl with
  | nil => rfl
  | cons e rest ih =>
    obtain ⟨k, info⟩ := e
    show lookup ((if k = c then (k, { info with short_term := ch }) else (k, info)) ::
        setShort rest c ch) cid = _
    by_cases hk : k = c
    · rw [if_pos hk]
      have hk2 : ¬ (k = cid) := fun hh => h (hk ▸ hh)
      show (if k = cid then some { info with short_term := ch }
          else lookup (setShort rest c ch) cid) = _
      rw [if_neg hk2, ih]
      show _ = (if k = cid then some info else lookup rest cid)
      rw [if_neg hk2]
    · rw [if_neg hk]
      show (if k = cid then some info else lookup (setShort rest c ch) cid) = _
      by_cases hk2 : k = cid
      · rw [if_pos hk2]
        show _ = (if k = cid then some info else lookup rest cid)
        rw [if_pos hk2]
      · rw [if_neg hk2, ih]
        show _ = (if k = cid then some info else lookup rest cid)
        rw [if_neg hk2]

theorem lookup_setShort_eq (wl : List (ℕ × CoinInfo)) (cid : ℕ) (ch : Channel) :
    lookup (setShort wl cid ch) cid =
      (lookup wl cid).map fun i => { i with short_term := ch } := by
  induction wl with
  | nil => rfl
  | cons e rest ih =>
    obtain ⟨k, info⟩ := e
    show lookup ((if k = cid then (k, { info with short_term := ch }) else (k, info)) ::
        setShort rest cid ch) cid = _
    by_cases hk : k = cid
    · rw [if_pos hk]
      show (if k = cid then some { info with short_term := ch }
          else lookup (setShort rest cid ch) cid) = _
      rw [if_pos hk]
      show _ = (if k = cid then some info else lookup rest cid).map fun i => { i with short_term := ch }
      rw [if_pos hk]
      rfl
    · rw [if_neg hk]
      show (if k = cid then some info else lookup (setShort rest cid ch) cid) = _
      rw [if_neg hk, ih]
      show _ = (if k = cid then some info else lookup rest cid).map fun i => { i with short_term := ch }
      rw [if_neg hk]

theorem setShort_mem {wl : List (ℕ × CoinInfo)} {c : ℕ} {ch : Channel} {e : ℕ × CoinInfo}
    (he : e ∈ setShort wl c ch) :
    ∃ e0 ∈ wl, e.1 = e0.1 ∧ e.2.long_term = e0.2.long_term ∧
      (e.2.short_term = e0.2.short_term ∨ e.2.short_term = ch) := by
  induction wl with
  | nil => simp [setShort] at he
  | cons x rest ih =>
    obtain ⟨k, info⟩ := x
    simp only [setShort, List.mem_cons] at he
    rcases he with he | he
    · by_cases hk : k = c
      · rw [if_pos hk] at he
        subst he
        exact ⟨(k, info), by simp, rfl, rfl, Or.inr rfl⟩
      · rw [if_neg hk] at he
        subst he
        exact ⟨(k, info), by simp, rfl, rfl, Or.inl rfl⟩
    · obtain ⟨e0, he0, hrest⟩ := ih he
      exact ⟨e0, by simp [he0], hrest⟩

theorem updatePhase_cons_pos {now : ℚ} {n : Notification} (hn : shortClass n)
    (wl : List (ℕ × CoinInfo)) (u : Bool) (rest : List Notification) :
    updatePhase now (wl, u) (n :: rest) =
      updatePhase now (setShort wl n.coin_id ⟨some n.current_price, now⟩, true) rest := by
  conv_lhs => unfold updatePhase
  rw [if_pos hn]

theorem updatePhase_cons_neg {now : ℚ} {n : Notification} (hn : ¬ shortClass n)
    (wl : List (ℕ × CoinInfo)) (u : Bool) (rest : List Notification) :
    updatePhase now (wl, u) (n :: rest) = updatePhase now (wl, u) rest := by
  conv_lhs => unfold updatePhase
  rw [if_neg hn]

theorem updatePhase_append (now : ℚ) (l1 l2 : List Notification)
    (acc : List (ℕ × CoinInfo) × Bool) :
    updatePhase now acc (l1 ++ l2) = updatePhase now (updatePhase now acc l1) l2 := by
  induction l1 generalizing acc with
  | nil => rfl
  | cons n rest ih =>
    obtain ⟨wl, u⟩ := acc
    rw [List.cons_append]
    by_cases hn : shortClass n
    · rw [updatePhase_cons_pos hn, updatePhase_cons_pos hn, ih]
    · rw [updatePhase_cons_neg hn, updatePhase_cons_neg hn, ih]

theorem updatePhase_keys (now : ℚ) (l : List Notification) (acc : List (ℕ × CoinInfo) × Bool) :
    (updatePhase now acc l).1.map Prod.fst = acc.1.map Prod.fst := by
  induction l generalizing acc with
  | nil => rfl
  | cons n rest ih =>
    obtain ⟨wl, u⟩ := acc
    by_cases hn : shortClass n
    · rw [updatePhase_cons_pos hn, ih, setShort_keys]
    · rw [updatePhase_cons_neg hn, ih]

theorem updatePhase_lookup_of_not_mem {now : ℚ} {l : List Notification} {cid : ℕ}
    (h : ∀ n ∈ l, shortClass n → n.coin_id ≠ cid) (acc : List (ℕ × CoinInfo) × Bool) :
    lookup (updatePhase now acc l).1 cid = lookup acc.1 cid := by
  induction l generalizing acc with
  | nil => rfl
  | cons n rest ih =>
    obtain ⟨wl, u⟩ := acc
    have hrest : ∀ n ∈ rest, shortClass n → n.coin_id ≠ cid := fun n hn => h n (by simp [hn])
    by_cases hn : shortClass n
    · rw [updatePhase_cons_pos hn, ih hrest]
      exact lookup_setShort_ne _ (h n (by simp) hn)
    · rw [updatePhase_cons_neg hn, ih hrest]

theorem updatePhase_lookup_long (now : ℚ) (l : List Notification)
    (acc : List (ℕ × CoinInfo) × Bool) (cid : ℕ) :
    (lookup (updatePhase now acc l).1 cid).map (fun i => i.long_term) =
      (lookup acc.1 cid).map fun i => i.long_term := by
  induction l generalizing acc with
  | nil => rfl
  | cons n rest ih =>
    obtain ⟨wl, u⟩ := acc
    by_cases hn : shortClass n
    · rw [updatePhase_cons_pos hn, ih]
      by_cases hk : n.coin_id = cid
      · subst hk
        rw [lookup_setShort_eq]
        cases lookup wl n.coin_id <;> rfl
      · rw [lookup_setShort_ne _ hk]
    · rw [updatePhase_cons_neg hn, ih]

theorem updatePhase_mem {now : ℚ} {l : List Notification} {acc : List (ℕ × CoinInfo) × Bool}
    {e : ℕ × CoinInfo} (he : e ∈ (updatePhase now acc l).1) :
    ∃ e0 ∈ acc.1, e.1 = e0.1 ∧ e.2.long_term = e0.2.long_term ∧
      (e.2.short_term = e0.2.short_term ∨ ∃ p, e.2.short_term = ⟨some p, now⟩) := by
  induction l generalizing acc with
  | nil => exact ⟨e, he, rfl, rfl, Or.inl rfl⟩
  | cons n rest ih =>
    obtain ⟨wl, u⟩ := acc
    by_cases hn : shortClass n
    · rw [updatePhase_cons_pos hn] at he
      obtain ⟨e1, he1, h1, h2, h3⟩ := ih he
      obtain ⟨e0, he0, g1, g2, g3⟩ := setShort_mem he1
      refine ⟨e0, he0, h1.trans g1, h2.trans g2, ?_⟩
      rcases h3 with h3 | ⟨p, h3⟩
      · rcases g3 with g3 | g3
        · exact Or.inl (h3.trans g3)
        · exact Or.inr ⟨n.current_price, h3.trans g3⟩
      · exact Or.inr ⟨p, h3⟩
    · rw [updatePhase_cons_neg hn] at he
      exact ih he

/-! ### At most one short-term-class notification per asset -/

theorem suppressedBy_of_mem {base : List Notification} {n0 a : Notification}
    (h0 : n0 ∈ base) (hty : n0.ntype = NType.short_term)
    (hsym : n0.coin_symbol = a.coin_symbol) : suppressedBy base a = true := by
  unfold suppressedBy
  rw [List.any_eq_true]
  exact ⟨n0, h0, by simp [hty, hsym]⟩

theorem tick_shortClass_count (now : ℚ) (prices : ℕ → Option ℚ) {wl : List (ℕ × CoinInfo)}
    (hnd : (wl.map Prod.fst).Nodup) (cid : ℕ) :
    ((checkPriceMovements now prices wl).notifications.filter
      (fun n => decide (shortClass n) && decide (n.coin_id = cid))).length ≤ 1 := by
  rw [checkPriceMovements_notifications, List.filter_append, List.length_append]
  have hbase := scanPhase_base_filter now prices hnd cid
  have hcands := scanPhase_cands_filter now prices hnd cid
  -- the degenerate cases: no entry with this key, or no price for it
  by_cases hdeg : ∀ info price, lookup wl cid = some info → prices cid = some price → False
  · have hbase0 : (scanPhase now prices wl).base.filter
        (fun n => decide (n.coin_id = cid)) = [] := by
      rw [hbase]
      cases hl : lookup wl cid with
      | none => cases prices cid <;> rfl
      | some info =>
        cases hp : prices cid with
        | none => rfl
        | some price => exact (hdeg info price hl hp).elim
    have hcands0 : (scanPhase now prices wl).cands.filter
        (fun n => decide (n.coin_id = cid)) = [] := by
      rw [hcands]
      cases hl : lookup wl cid with
      | none => cases prices cid <;> rfl
      | some info =>
        cases hp : prices cid with
        | none => rfl
        | some price => exact (hdeg info price hl hp).elim
    have hA : (scanPhase now prices wl).base.filter
        (fun n => decide (shortClass n) && decide (n.coin_id = cid)) = [] := by
      rw [← List.filter_filter, hbase0]
      rfl
    have hB : ((scanPhase now prices wl).cands.filter
        (fun a => !suppressedBy (scanPhase now prices wl).base a)).filter
        (fun n => decide (shortClass n) && decide (n.coin_id = cid)) = [] := by
      rw [List.filter_eq_nil_iff]
      intro a ha hP
      have ha1 := (List.mem_filter.mp ha).1
      have hcid : decide (a.coin_id = cid) = true := by
        have h2 := hP
        simp only [Bool.and_eq_true] at h2
        exact h2.2
      have hmemf : a ∈ (scanPhase now prices wl).cands.filter
          (fun n => decide (n.coin_id = cid)) := List.mem_filter.mpr ⟨ha1, hcid⟩
      rw [hcands0] at hmemf
      simp at hmemf
    rw [hA, hB]
    simp
  · push_neg at hdeg
    obtain ⟨info, price, hl, hp, -⟩ := hdeg
    have hbase' : (scanPhase now prices wl).base.filter
        (fun n => decide (n.coin_id = cid)) = (processCoin now cid info price).notifs := by
      rw [hbase, hl, hp]
    have hcands' : (scanPhase now prices wl).cands.filter
        (fun n => decide (n.coin_id = cid)) =
        (processCoin now cid info price).absCand.toList := by
      rw [hcands, hl, hp]
    have hA : (scanPhase now prices wl).base.filter
        (fun n => decide (shortClass n) && decide (n.coin_id = cid)) =
        (processCoin now cid info price).notifs.filter (fun n => decide (shortClass n)) := by
      rw [← List.filter_filter, hbase']
    have hB : ((scanPhase now prices wl).cands.filter
        (fun a => !suppressedBy (scanPhase now prices wl).base a)).filter
        (fun n => decide (shortClass n) && decide (n.coin_id = cid)) =
        ((processCoin now cid info price).absCand.toList.filter
          (fun n => decide (shortClass n))).filter
          (fun a => !suppressedBy (scanPhase now prices wl).base a) := by
      rw [← hcands', ← List.filter_filter, List.filter_filter, List.filter_filter,
        List.filter_filter, List.filter_filter]
      exact List.filter_congr fun a _ => by
        cases hx : suppressedBy (scanPhase now prices wl).base a <;>
          cases hy : decide (shortClass a) <;> cases hz : decide (a.coin_id = cid) <;> rfl
    by_cases hAe : (processCoin now cid info price).notifs.filter
        (fun n => decide (shortClass n)) = []
    · rw [hA, hAe]
      simp only [List.length_nil, Nat.zero_add]
      rw [hB]
      calc (((processCoin now cid info price).absCand.toList.filter
            (fun n => decide (shortClass n))).filter
            (fun a => !suppressedBy (scanPhase now prices wl).base a)).length
          ≤ ((processCoin now cid info price).absCand.toList.filter
            (fun n => decide (shortClass n))).length := List.length_filter_le _ _
        _ ≤ (processCoin now cid info price).absCand.toList.length :=
            List.length_filter_le _ _
        _ ≤ 1 := by cases (processCoin now cid info price).absCand <;> simp
    · obtain ⟨n0, hn0⟩ := List.exists_mem_of_ne_nil _ hAe
      have hn0n : n0 ∈ (processCoin now cid info price).notifs := (List.mem_filter.mp hn0).1
      have hn0sc : shortClass n0 := by
        have := (List.mem_filter.mp hn0).2
        simpa using this
      obtain ⟨-, hsym0, -, hty0⟩ := processCoin_mem_notifs hn0n
      have hn0ty : n0.ntype = NType.short_term := by
        rcases hty0 with h | h
        · exact h
        · rcases hn0sc with h2 | h2
          · exact h2
          · rw [h] at h2
            exact absurd h2 (by simp)
      have hn0base : n0 ∈ (scanPhase now prices wl).base := by
        have hmem : n0 ∈ (scanPhase now prices wl).base.filter
            (fun n => decide (n.coin_id = cid)) := by
          rw [hbase']
          exact hn0n
        exact (List.mem_filter.mp hmem).1
      have hBnil : ((scanPhase now prices wl).cands.filter
          (fun a => !suppressedBy (scanPhase now prices wl).base a)).filter
          (fun n => decide (shortClass n) && decide (n.coin_id = cid)) = [] := by
        rw [hB, List.filter_eq_nil_iff]
        intro a ha
        have ha1 : a ∈ (processCoin now cid info price).absCand.toList :=
          (List.mem_filter.mp ha).1
        have ha2 : (processCoin now cid info price).absCand = some a := by
          simpa using ha1
        obtain ⟨-, hsyma, -, -⟩ := processCoin_absCand_eq_some ha2
        rw [suppressedBy_of_mem hn0base hn0ty (hsym0.trans hsyma.symm)]
        simp
      rw [hA, hBnil]
      simp only [List.length_nil, Nat.add_zero]
      exact processCoin_shortClass_le_one now cid info price

/-! ### Baseline-reset lemmas -/

theorem updatePhase_cons_pos' {now : ℚ} {n : Notification} (hn : shortClass n)
    (acc : List (ℕ × CoinInfo) × Bool) (rest : List Notification) :
    updatePhase now acc (n :: rest) =
      updatePhase now (setShort acc.1 n.coin_id ⟨some n.current_price, now⟩, true) rest := by
  obtain ⟨wl, u⟩ := acc
  exact updatePhase_cons_pos hn wl u rest

theorem tick_mem_key {now : ℚ} {prices : ℕ → Option ℚ} {wl : List (ℕ × CoinInfo)}
    {n : Notification} (hn : n ∈ (checkPriceMovements now prices wl).notifications) :
    n.coin_id ∈ wl.map Prod.fst ∧ prices n.coin_id = some n.current_price := by
  rw [checkPriceMovements_notifications] at hn
  rcases List.mem_append.mp hn with h | h
  · have := scanPhase_mem_base h
    exact ⟨this.1, this.2.1⟩
  · have := scanPhase_mem_cands (List.mem_filter.mp h).1
    exact ⟨this.1, this.2.1⟩

theorem tick_mem_split {now : ℚ} {prices : ℕ → Option ℚ} {wl : List (ℕ × CoinInfo)}
    (hnd : (wl.map Prod.fst).Nodup) {n : Notification}
    (hn : n ∈ (checkPriceMovements now prices wl).notifications) (hsc : shortClass n) :
    ∃ l1 l2, (checkPriceMovements now prices wl).notifications = l1 ++ n :: l2 ∧
      ∀ m ∈ l2, shortClass m → m.coin_id ≠ n.coin_id := by
  obtain ⟨l1, l2, hsplit⟩ := List.append_of_mem hn
  refine ⟨l1, l2, hsplit, ?_⟩
  have hcount := tick_shortClass_count now prices hnd n.coin_id
  rw [hsplit, List.filter_append, List.filter_cons] at hcount
  have hPn : (decide (shortClass n) && decide (n.coin_id = n.coin_id)) = true := by simp [hsc]
  rw [hPn] at hcount
  simp only [if_true, List.length_append, List.length_cons] at hcount
  intro m hm hmsc hmid
  have hPm : (decide (shortClass m) && decide (m.coin_id = n.coin_id)) = true := by
    simp [hmsc, hmid]
  have hmf : m ∈ l2.filter
      (fun x => decide (shortClass x) && decide (x.coin_id = n.coin_id)) :=
    List.mem_filter.mpr ⟨hm, hPm⟩
  have hpos : 0 < (l2.filter
      (fun x => decide (shortClass x) && decide (x.coin_id = n.coin_id))).length :=
    List.length_pos.mpr (List.ne_nil_of_mem hmf)
  omega

/-- After the tick, the asset of every emitted short-term-class
notification has its short-term channel reset to the notification's price
and the tick time (the update pass of lines 490-499). -/
theorem tick_short_reset {now : ℚ} {prices : ℕ → Option ℚ} {wl : List (ℕ × CoinInfo)}
    (hnd : (wl.map Prod.fst).Nodup) {n : Notification}
    (hn : n ∈ (checkPriceMovements now prices wl).notifications) (hsc : shortClass n) :
    ∃ i, lookup (checkPriceMovements now prices wl).watchlist n.coin_id = some i ∧
      i.short_term = ⟨some n.current_price, now⟩ := by
  obtain ⟨l1, l2, hsplit, hl2⟩ := tick_mem_split hnd hn hsc
  have hwl : (checkPriceMovements now prices wl).watchlist =
      (updatePhase now ((scanPhase now prices wl).watchlist, (scanPhase now prices wl).changed)
        (checkPriceMovements now prices wl).notifications).1 := rfl
  rw [hwl, hsplit, updatePhase_append, updatePhase_cons_pos' hsc,
    updatePhase_lookup_of_not_mem hl2, lookup_setShort_eq]
  have hkey := (tick_mem_key hn).1
  have hlong := updatePhase_lookup_long now l1
    ((scanPhase now prices wl).watchlist, (scanPhase now prices wl).changed) n.coin_id
  have hsome0 : (lookup (scanPhase now prices wl).watchlist n.coin_id).isSome := by
    apply lookup_isSome_of_mem
    rw [scanPhase_keys]
    exact hkey
  have hsome1 : (lookup (updatePhase now
      ((scanPhase now prices wl).watchlist, (scanPhase now prices wl).changed) l1).1
      n.coin_id).isSome := by
    have := congrArg Option.isSome hlong
    simpa using this.trans (by simp [hsome0])
  obtain ⟨i0, hi0⟩ := Option.isSome_iff_exists.mp hsome1
  rw [hi0]
  exact ⟨_, rfl, rfl⟩

/-- After the tick, the asset of every emitted long-term notification had
its long-term channel reset to the notification's price and the tick time
at match time (lines 441-444); the update pass never touches the long-term
channel. -/
theorem tick_long_reset {now : ℚ} {prices : ℕ → Option ℚ} {wl : List (ℕ × CoinInfo)}
    (hnd : (wl.map Prod.fst).Nodup) {n : Notification}
    (hn : n ∈ (checkPriceMovements now prices wl).notifications)
    (hty : n.ntype = NType.long_term) :
    ∃ i, lookup (checkPriceMovements now prices wl).watchlist n.coin_id = some i ∧
      i.long_term = ⟨some n.current_price, now⟩ := by
  have hnb : n ∈ (scanPhase now prices wl).base := by
    rw [checkPriceMovements_notifications] at hn
    rcases List.mem_append.mp hn with h | h
    · exact h
    · have habs := (scanPhase_mem_cands (List.mem_filter.mp h).1).2.2
      rw [hty] at habs
      exact absurd habs (by simp)
  obtain ⟨hkey, hpr, -⟩ := scanPhase_mem_base hnb
  obtain ⟨info, hinfo⟩ := Option.isSome_iff_exists.mp (lookup_isSome_of_mem hkey)
  have hbase := scanPhase_base_filter now prices hnd n.coin_id
  rw [hinfo, hpr] at hbase
  have hbase2 : (scanPhase now prices wl).base.filter
      (fun m => decide (m.coin_id = n.coin_id)) =
      (processCoin now n.coin_id info n.current_price).notifs := hbase
  have hnn : n ∈ (processCoin now n.coin_id info n.current_price).notifs := by
    rw [← hbase2]
    exact List.mem_filter.mpr ⟨hnb, by simp⟩
  have hreset := processCoin_mem_long hnn hty
  have hs := scanPhase_lookup now prices wl n.coin_id
  rw [hinfo] at hs
  simp only [hpr, Option.map_some'] at hs
  have hwl : (checkPriceMovements now prices wl).watchlist =
      (updatePhase now ((scanPhase now prices wl).watchlist, (scanPhase now prices wl).changed)
        (checkPriceMovements now prices wl).notifications).1 := rfl
  have hlong := updatePhase_lookup_long now (checkPriceMovements now prices wl).notifications
    ((scanPhase now prices wl).watchlist, (scanPhase now prices wl).changed) n.coin_id
  rw [← hwl] at hlong
  rw [hs] at hlong
  simp only [Option.map_some'] at hlong
  rw [hreset] at hlong
  obtain ⟨i, hi, hieq⟩ := Option.map_eq_some'.mp hlong
  exact ⟨i, hi, hieq⟩

/-! ### Frame lemmas: skipped or silent coins do not disturb the tick -/

theorem lookup_append_of_not_mem {l1 : List (ℕ × CoinInfo)} {cid : ℕ}
    (h : cid ∉ l1.map Prod.fst) (v : CoinInfo) (l2 : List (ℕ × CoinInfo)) :
    lookup (l1 ++ (cid, v) :: l2) cid = some v := by
  induction l1 with
  | nil => simp [lookup]
  | cons e rest ih =>
    obtain ⟨k, info⟩ := e
    simp only [List.map_cons, List.mem_cons] at h
    push_neg at h
    rw [List.cons_append]
    show (if k = cid then some info else lookup (rest ++ (cid, v) :: l2) cid) = some v
    rw [if_neg (fun hh => h.1 hh.symm), ih h.2]

/-- A coin with no price this tick contributes nothing to the loop and its
entry passes through untouched. -/
theorem scanPhase_middle_unpriced (now : ℚ) {prices : ℕ → Option ℚ} {cid : ℕ}
    (info : CoinInfo) (pre post : List (ℕ × CoinInfo)) (hp : prices cid = none) :
    scanPhase now prices (pre ++ (cid, info) :: post) =
      ⟨(scanPhase now prices pre).watchlist ++
          (cid, info) :: (scanPhase now prices post).watchlist,
        (scanPhase now prices pre).base ++ (scanPhase now prices post).base,
        (scanPhase now prices pre).cands ++ (scanPhase now prices post).cands,
        (scanPhase now prices pre).changed || (scanPhase now prices post).changed⟩ := by
  rw [scanPhase_append, scanPhase_cons_none hp]

/-- A priced coin whose loop body emits nothing and holds no candidate
only possibly rewrites its own entry. -/
theorem scanPhase_middle_silent {now : ℚ} {prices : ℕ → Option ℚ} {cid : ℕ}
    {info : CoinInfo} {price : ℚ} (pre post : List (ℕ × CoinInfo))
    (hp : prices cid = some price)
    (hno : (processCoin now cid info price).notifs = [])
    (hnc : (processCoin now cid info price).absCand = none) :
    scanPhase now prices (pre ++ (cid, info) :: post) =
      ⟨(scanPhase now prices pre).watchlist ++
          (cid, (processCoin now cid info price).info) ::
            (scanPhase now prices post).watchlist,
        (scanPhase now prices pre).base ++ (scanPhase now prices post).base,
        (scanPhase now prices pre).cands ++ (scanPhase now prices post).cands,
        (scanPhase now prices pre).changed ||
          ((processCoin now cid info price).changed || (scanPhase now prices post).changed)⟩ := by
  rw [scanPhase_append, scanPhase_cons_some hp, hno, hnc]
  rfl

/-- With the middle coin silent, the tick's notifications are those of the
watchlist without it. -/
theorem tick_notifs_erase {now : ℚ} {prices : ℕ → Option ℚ} {cid : ℕ} {cflag : Bool}
    {entryInfo : CoinInfo} {pre post wl : List (ℕ × CoinInfo)}
    (hmid : scanPhase now prices wl =
      ⟨(scanPhase now prices pre).watchlist ++
          (cid, entryInfo) :: (scanPhase now prices post).watchlist,
        (scanPhase now prices pre).base ++ (scanPhase now prices post).base,
        (scanPhase now prices pre).cands ++ (scanPhase now prices post).cands, cflag⟩) :
    (checkPriceMovements now prices wl).notifications =
      (checkPriceMovements now prices (pre ++ post)).notifications := by
  rw [checkPriceMovements_notifications, checkPriceMovements_notifications, hmid,
    scanPhase_append]

theorem tick_notifs_filter_mid {now : ℚ} {prices : ℕ → Option ℚ} {cid : ℕ} {cflag : Bool}
    {entryInfo : CoinInfo} {pre post wl : List (ℕ × CoinInfo)}
    (hpre : cid ∉ pre.map Prod.fst) (hpost : cid ∉ post.map Prod.fst)
    (hmid : scanPhase now prices wl =
      ⟨(scanPhase now prices pre).watchlist ++
          (cid, entryInfo) :: (scanPhase now prices post).watchlist,
        (scanPhase now prices pre).base ++ (scanPhase now prices post).base,
        (scanPhase now prices pre).cands ++ (scanPhase now prices post).cands, cflag⟩) :
    (checkPriceMovements now prices wl).notifications.filter
      (fun n => decide (n.coin_id = cid)) = [] := by
  rw [tick_notifs_erase hmid, List.filter_eq_nil_iff]
  intro n hn h
  have hk := (tick_mem_key hn).1
  rw [List.map_append, List.mem_append] at hk
  have hcid : n.coin_id = cid := by simpa using h
  rw [hcid] at hk
  rcases hk with hk | hk
  · exact hpre hk
  · exact hpost hk

/-- With the middle coin silent and its key fresh elsewhere, its entry
after the whole tick is exactly what the loop body left. -/
theorem tick_lookup_middle {now : ℚ} {prices : ℕ → Option ℚ} {cid : ℕ} {cflag : Bool}
    {entryInfo : CoinInfo} {pre post wl : List (ℕ × CoinInfo)}
    (hpre : cid ∉ pre.map Prod.fst) (hpost : cid ∉ post.map Prod.fst)
    (hmid : scanPhase now prices wl =
      ⟨(scanPhase now prices pre).watchlist ++
          (cid, entryInfo) :: (scanPhase now prices post).watchlist,
        (scanPhase now prices pre).base ++ (scanPhase now prices post).base,
        (scanPhase now prices pre).cands ++ (scanPhase now prices post).cands, cflag⟩) :
    lookup (checkPriceMovements now prices wl).watchlist cid = some entryInfo := by
  have hwl : (checkPriceMovements now prices wl).watchlist =
      (updatePhase now ((scanPhase now prices wl).watchlist, (scanPhase now prices wl).changed)
        (checkPriceMovements now prices wl).notifications).1 := rfl
  rw [hwl]
  have hfresh : ∀ m ∈ (checkPriceMovements now prices wl).notifications,
      shortClass m → m.coin_id ≠ cid := by
    intro m hm hsc hcid
    have := tick_notifs_filter_mid hpre hpost hmid
    rw [List.filter_eq_nil_iff] at this
    exact this m hm (by simp [hcid])
  rw [updatePhase_lookup_of_not_mem hfresh]
  show lookup (scanPhase now prices wl).watchlist cid = some entryInfo
  rw [hmid]
  apply lookup_append_of_not_mem
  rw [scanPhase_keys]
  exact hpre

/-- Every priced entry's channels are both baselined after the tick. -/
theorem tick_bothSet {now : ℚ} {prices : ℕ → Option ℚ} {wl : List (ℕ × CoinInfo)}
    {e : ℕ × CoinInfo} (he : e ∈ (checkPriceMovements now prices wl).watchlist)
    {p : ℚ} (hp : prices e.1 = some p) :
    (e.2.short_term.last_price).isSome ∧ (e.2.long_term.last_price).isSome := by
  have hwl : (checkPriceMovements now prices wl).watchlist =
      (updatePhase now ((scanPhase now prices wl).watchlist, (scanPhase now prices wl).changed)
        (checkPriceMovements now prices wl).notifications).1 := rfl
  rw [hwl] at he
  obtain ⟨e0, he0, hk, hlong, hshort⟩ := updatePhase_mem he
  have h0 := scanPhase_isSome he0 (p := p) (by rw [← hk]; exact hp)
  constructor
  · rcases hshort with h | ⟨q, h⟩
    · rw [h]
      exact h0.1
    · rw [h]
      simp
  · rw [hlong]
    exact h0.2

/-! ### The claims -/

/-- C1 (counterexample): with two watched assets sharing the symbol `X`,
coin 2 holds a pending absolute candidate and no ShortTerm alert was
emitted for coin 2 this tick, yet the candidate is not promoted — it is
suppressed by coin 1's ShortTerm alert, because the overlap test of line
464 compares `coin_symbol`, not the asset id. -/
theorem C1_counterexample :
    (scanPhase 60 cexC1_prices cexC1_wl).cands.filter (fun n => decide (n.coin_id = 2)) =
      [⟨"Coin Two", "X", 103, 3, none, NType.absolute, 2⟩] ∧
    (scanPhase 60 cexC1_prices cexC1_wl).base.filter
      (fun n => decide (n.ntype = NType.short_term ∧ n.coin_id = 2)) = [] ∧
    (checkPriceMovements 60 cexC1_prices cexC1_wl).notifications.filter
      (fun n => decide (n.coin_id = 2)) = [] := by
  with_unfolding_all decide

/-- C1 (amended): a pending Absolute candidate is suppressed iff a
ShortTerm alert was already emitted this tick for an asset with the same
symbol (so suppression can be caused by a different asset sharing the
symbol); it is otherwise promoted.  At most one short-term-class alert
still fires per asset id and tick. -/
theorem C1_overlap_by_symbol (now : ℚ) (prices : ℕ → Option ℚ) {wl : List (ℕ × CoinInfo)}
    (hnd : (wl.map Prod.fst).Nodup) :
    (∀ a ∈ (scanPhase now prices wl).cands,
      (a ∈ (checkPriceMovements now prices wl).notifications ↔
        ¬ ∃ m ∈ (scanPhase now prices wl).base,
            m.ntype = NType.short_term ∧ m.coin_symbol = a.coin_symbol)) ∧
    ∀ cid, ((checkPriceMovements now prices wl).notifications.filter
        (fun n => decide (shortClass n) && decide (n.coin_id = cid))).length ≤ 1 := by
  constructor
  · intro a ha
    have hty := (scanPhase_mem_cands ha).2.2
    rw [checkPriceMovements_notifications, List.mem_append]
    constructor
    · rintro (h | h)
      · obtain ⟨-, -, hbt⟩ := scanPhase_mem_base h
        rcases hbt with hbt | hbt <;> (rw [hty] at hbt; exact absurd hbt (by simp))
      · have hsup := (List.mem_filter.mp h).2
        rintro ⟨m, hm, hmty, hmsym⟩
        rw [suppressedBy_of_mem hm hmty hmsym] at hsup
        simp at hsup
    · intro hno
      refine Or.inr (List.mem_filter.mpr ⟨ha, ?_⟩)
      cases hx : suppressedBy (scanPhase now prices wl).base a with
      | false => simp
      | true =>
        exfalso
        unfold suppressedBy at hx
        rw [List.any_eq_true] at hx
        obtain ⟨m, hm, hmp⟩ := hx
        rw [decide_eq_true_eq] at hmp
        exact hno ⟨m, hm, hmp.1, hmp.2⟩
  · exact fun cid => tick_shortClass_count now prices hnd cid

theorem C1_overlap_by_symbol_witness :
    (∀ a ∈ (scanPhase 60 cexC1_prices cexC1_wl).cands,
      (a ∈ (checkPriceMovements 60 cexC1_prices cexC1_wl).notifications ↔
        ¬ ∃ m ∈ (scanPhase 60 cexC1_prices cexC1_wl).base,
            m.ntype = NType.short_term ∧ m.coin_symbol = a.coin_symbol)) ∧
    ∀ cid, ((checkPriceMovements 60 cexC1_prices cexC1_wl).notifications.filter
        (fun n => decide (shortClass n) && decide (n.coin_id = cid))).length ≤ 1 :=
  C1_overlap_by_symbol 60 cexC1_prices (by with_unfolding_all decide)

/-- C2: for an asset with both baselines set (and nonzero, so the percent
change is defined), the short-term table is the declared four-rule list, a
rule matches exactly when the magnitude test and the window test (against
the short baseline's last notification time) both hold, and the coin
contributes a ShortTerm notification exactly for the first matching rule
in declared order — and no later rule. -/
theorem C2_short_scan (now : ℚ) (cid : ℕ) (price sp lp stt ltt : ℚ) (nm sym : String)
    (hsp : sp ≠ 0) (hlp : lp ≠ 0) :
    SHORT_TERM_THRESHOLDS =
      [⟨0.2, some 2⟩, ⟨0.5, some 5⟩, ⟨1.0, some 10⟩, ⟨2.0, some 30⟩] ∧
    scanThresholds ((price - sp) / sp * 100) (now - stt) SHORT_TERM_THRESHOLDS =
      (match SHORT_TERM_THRESHOLDS.find?
          (fun t => decide (ruleHit ((price - sp) / sp * 100) (now - stt) t)) with
        | some t => ScanResult.matched t (now - stt)
        | none => ScanResult.nomatch) ∧
    (processCoin now cid ⟨⟨some sp, stt⟩, ⟨some lp, ltt⟩, nm, sym⟩ price).notifs.filter
        (fun n => decide (n.ntype = NType.short_term)) =
      (match scanThresholds ((price - sp) / sp * 100) (now - stt) SHORT_TERM_THRESHOLDS with
        | .matched _ e =>
          [⟨nm, sym, price, (price - sp) / sp * 100, some e, NType.short_term, cid⟩]
        | _ => []) := by
  refine ⟨rfl, scanThresholds_eq_find _ _ _ ?_, ?_⟩
  · intro t ht
    fin_cases ht <;> simp
  · exact processCoin_shortFilter rfl rfl hsp hlp

theorem C2_short_scan_witness :
    SHORT_TERM_THRESHOLDS =
      [⟨0.2, some 2⟩, ⟨0.5, some 5⟩, ⟨1.0, some 10⟩, ⟨2.0, some 30⟩] ∧
    scanThresholds ((102 - 100 : ℚ) / 100 * 100) (60 - 59 : ℚ) SHORT_TERM_THRESHOLDS =
      (match SHORT_TERM_THRESHOLDS.find?
          (fun t => decide (ruleHit ((102 - 100 : ℚ) / 100 * 100) (60 - 59 : ℚ) t)) with
        | some t => ScanResult.matched t (60 - 59 : ℚ)
        | none => ScanResult.nomatch) ∧
    (processCoin 60 5 ⟨⟨some 100, 59⟩, ⟨some 100, 59⟩, "Asset W", "W"⟩ 102).notifs.filter
        (fun n => decide (n.ntype = NType.short_term)) =
      (match scanThresholds ((102 - 100 : ℚ) / 100 * 100) (60 - 59 : ℚ)
          SHORT_TERM_THRESHOLDS with
        | .matched _ e =>
          [⟨"Asset W", "W", 102, (102 - 100 : ℚ) / 100 * 100, some e, NType.short_term, 5⟩]
        | _ => []) :=
  C2_short_scan 60 5 102 100 100 59 59 "Asset W" "W" (by norm_num) (by norm_num)

/-- C3: at a +20 % long-term move with 2000 minutes elapsed, none of the
four finite long-term rules matches, and the claimed (15.0 %, ∞) match
never happens: the scan hits `timedelta(minutes=float('inf'))`, which
raises `OverflowError` (caught at line 448), so no LongTerm alert is
emitted and the long baseline is left unchanged — contradicting the claim
(and the spec's intent that the ∞ window always passes). -/
theorem C3_infinite_window_overflow :
    |((120 - 100 : ℚ)) / 100 * 100| ≥ 15 ∧
    (∀ t ∈ LONG_TERM_THRESHOLDS.take 4,
      ¬ ruleHit ((120 - 100 : ℚ) / 100 * 100) (3000 - 1000 : ℚ) t) ∧
    scanThresholds ((120 - 100 : ℚ) / 100 * 100) (3000 - 1000 : ℚ) LONG_TERM_THRESHOLDS =
      ScanResult.overflowError ∧
    (processCoin 3000 7 c3_info 120).notifs.filter
      (fun n => decide (n.ntype = NType.long_term)) = [] ∧
    (processCoin 3000 7 c3_info 120).info.long_term = ⟨some 100, 1000⟩ ∧
    (processCoin 3000 7 c3_info 120).changed = false := by
  with_unfolding_all decide

/-- C4 (counterexample): in Scenario A the change is +2.0 % after 1
minute, so the FIRST rule of the table in declared order, (0.2 %, 2 m),
matches — not (2.0 %, 30 m) as the claim says. -/
theorem C4_counterexample :
    scanThresholds ((102 - 100 : ℚ) / 100 * 100) (60 - 59 : ℚ) SHORT_TERM_THRESHOLDS =
      ScanResult.matched ⟨0.2, some 2⟩ 1 ∧
    (⟨0.2, some 2⟩ : Threshold) ≠ ⟨2.0, some 30⟩ := by
  with_unfolding_all decide

/-- C4 (amended): in Scenario A the short-term rule that matches (first in
declared order) is (0.2 %, 2 m); a single ShortTerm alert is emitted, the
absolute rule also matches but its candidate is suppressed by overlap
resolution, and the short-term baseline resets to 102 at the tick time
(the long-term channel is untouched). -/
theorem C4_scenarioA :
    scanThresholds ((102 - 100 : ℚ) / 100 * 100) (60 - 59 : ℚ) SHORT_TERM_THRESHOLDS =
      ScanResult.matched ⟨0.2, some 2⟩ 1 ∧
    (scanPhase 60 scenA_prices scenA_wl).cands =
      [⟨"Asset X", "X", 102, 2, none, NType.absolute, 1⟩] ∧
    checkPriceMovements 60 scenA_prices scenA_wl =
      ⟨[⟨"Asset X", "X", 102, 2, some 1, NType.short_term, 1⟩],
        [(1, ⟨⟨some 102, 60⟩, ⟨some 100, 59⟩, "Asset X", "X"⟩)], true⟩ := by
  with_unfolding_all decide

/-- C5: a priced asset with a null baseline on either channel is
initialized — both channels set to the current price and `now`, state
marked changed, nothing emitted and no check run for it — and
consequently every priced asset ends the tick with both baselines set. -/
theorem C5_initialization (now : ℚ) (prices : ℕ → Option ℚ)
    (pre post : List (ℕ × CoinInfo)) (cid : ℕ) (info : CoinInfo) (price : ℚ)
    (hp : prices cid = some price)
    (hinit : info.short_term.last_price = none ∨ info.long_term.last_price = none)
    (hpre : cid ∉ pre.map Prod.fst) (hpost : cid ∉ post.map Prod.fst) :
    processCoin now cid info price =
      ⟨{ info with short_term := ⟨some price, now⟩, long_term := ⟨some price, now⟩ },
        true, [], none⟩ ∧
    (checkPriceMovements now prices (pre ++ (cid, info) :: post)).notifications.filter
      (fun n => decide (n.coin_id = cid)) = [] ∧
    lookup (checkPriceMovements now prices (pre ++ (cid, info) :: post)).watchlist cid =
      some { info with short_term := ⟨some price, now⟩, long_term := ⟨some price, now⟩ } ∧
    ∀ wl' : List (ℕ × CoinInfo), ∀ e ∈ (checkPriceMovements now prices wl').watchlist,
      ∀ p, prices e.1 = some p →
        (e.2.short_term.last_price).isSome ∧ (e.2.long_term.last_price).isSome := by
  have hpc := processCoin_init now cid price hinit
  have hmid := scanPhase_middle_silent pre post hp (by rw [hpc]) (by rw [hpc])
  rw [hpc] at hmid
  exact ⟨hpc, tick_notifs_filter_mid hpre hpost hmid, tick_lookup_middle hpre hpost hmid,
    fun wl' e he p hp' => tick_bothSet he hp'⟩

theorem C5_initialization_witness :
    processCoin 10 3 c5_info 50 =
      ⟨{ c5_info with short_term := ⟨some 50, 10⟩, long_term := ⟨some 50, 10⟩ },
        true, [], none⟩ ∧
    (checkPriceMovements 10 c5_prices ([] ++ (3, c5_info) :: [])).notifications.filter
      (fun n => decide (n.coin_id = 3)) = [] ∧
    lookup (checkPriceMovements 10 c5_prices ([] ++ (3, c5_info) :: [])).watchlist 3 =
      some { c5_info with short_term := ⟨some 50, 10⟩, long_term := ⟨some 50, 10⟩ } ∧
    ∀ wl' : List (ℕ × CoinInfo), ∀ e ∈ (checkPriceMovements 10 c5_prices wl').watchlist,
      ∀ p, c5_prices e.1 = some p →
        (e.2.short_term.last_price).isSome ∧ (e.2.long_term.last_price).isSome :=
  C5_initialization 10 c5_prices [] [] 3 c5_info 50 rfl (Or.inl rfl) (by simp) (by simp)

/-- C6: an asset whose stored short- or long-term baseline price is zero
is inert for the tick — the division by zero is never an unguarded crash
(the loop body aborts before appending or mutating anything): no
notification for that asset, its entry unchanged, and the tick's
notifications are exactly those of the watchlist without it. -/
theorem C6_zero_baseline (now : ℚ) (prices : ℕ → Option ℚ)
    (pre post : List (ℕ × CoinInfo)) (cid : ℕ) (info : CoinInfo) (price sp lp : ℚ)
    (hp : prices cid = some price)
    (hs : info.short_term.last_price = some sp) (hl : info.long_term.last_price = some lp)
    (hz : sp = 0 ∨ lp = 0)
    (hpre : cid ∉ pre.map Prod.fst) (hpost : cid ∉ post.map Prod.fst) :
    processCoin now cid info price = ⟨info, false, [], none⟩ ∧
    (checkPriceMovements now prices (pre ++ (cid, info) :: post)).notifications.filter
      (fun n => decide (n.coin_id = cid)) = [] ∧
    lookup (checkPriceMovements now prices (pre ++ (cid, info) :: post)).watchlist cid =
      some info ∧
    (checkPriceMovements now prices (pre ++ (cid, info) :: post)).notifications =
      (checkPriceMovements now prices (pre ++ post)).notifications := by
  have hpc := processCoin_zero now cid price hs hl hz
  have hmid := scanPhase_middle_silent pre post hp (by rw [hpc]) (by rw [hpc])
  rw [hpc] at hmid
  exact ⟨hpc, tick_notifs_filter_mid hpre hpost hmid, tick_lookup_middle hpre hpost hmid,
    tick_notifs_erase hmid⟩

theorem C6_zero_baseline_witness :
    processCoin 9 4 c6_info 7 = ⟨c6_info, false, [], none⟩ ∧
    (checkPriceMovements 9 c6_prices ([] ++ (4, c6_info) :: [])).notifications.filter
      (fun n => decide (n.coin_id = 4)) = [] ∧
    lookup (checkPriceMovements 9 c6_prices ([] ++ (4, c6_info) :: [])).watchlist 4 =
      some c6_info ∧
    (checkPriceMovements 9 c6_prices ([] ++ (4, c6_info) :: [])).notifications =
      (checkPriceMovements 9 c6_prices ([] ++ [])).notifications :=
  C6_zero_baseline 9 c6_prices [] [] 4 c6_info 7 0 100 rfl rfl rfl (Or.inl rfl)
    (by simp) (by simp)

/-- C7: an asset absent from the current-price map is skipped — no
notification carries its id, its whole record is unchanged after the
tick, and the tick's notifications equal those of the watchlist without
it. -/
theorem C7_missing_price (now : ℚ) (prices : ℕ → Option ℚ)
    (pre post : List (ℕ × CoinInfo)) (cid : ℕ) (info : CoinInfo)
    (hp : prices cid = none)
    (hpre : cid ∉ pre.map Prod.fst) (hpost : cid ∉ post.map Prod.fst) :
    (checkPriceMovements now prices (pre ++ (cid, info) :: post)).notifications.filter
      (fun n => decide (n.coin_id = cid)) = [] ∧
    lookup (checkPriceMovements now prices (pre ++ (cid, info) :: post)).watchlist cid =
      some info ∧
    (checkPriceMovements now prices (pre ++ (cid, info) :: post)).notifications =
      (checkPriceMovements now prices (pre ++ post)).notifications := by
  have hmid := scanPhase_middle_unpriced now info pre post hp
  exact ⟨tick_notifs_filter_mid hpre hpost hmid, tick_lookup_middle hpre hpost hmid,
    tick_notifs_erase hmid⟩

theorem C7_missing_price_witness :
    (checkPriceMovements 9 c6_prices ([] ++ (8, c7_info) :: [])).notifications.filter
      (fun n => decide (n.coin_id = 8)) = [] ∧
    lookup (checkPriceMovements 9 c6_prices ([] ++ (8, c7_info) :: [])).watchlist 8 =
      some c7_info ∧
    (checkPriceMovements 9 c6_prices ([] ++ (8, c7_info) :: [])).notifications =
      (checkPriceMovements 9 c6_prices ([] ++ [])).notifications :=
  C7_missing_price 9 c6_prices [] [] 8 c7_info rfl (by simp) (by simp)

/-- C8: every emitted notification carries the tick's current price of its
asset; after the tick, the asset of a short-term-class notification has
its short-term channel equal to (current price, tick time), and the asset
of a LongTerm notification has its long-term channel reset identically. -/
theorem C8_baseline_reset (now : ℚ) (prices : ℕ → Option ℚ) {wl : List (ℕ × CoinInfo)}
    (hnd : (wl.map Prod.fst).Nodup) {n : Notification}
    (hn : n ∈ (checkPriceMovements now prices wl).notifications) :
    prices n.coin_id = some n.current_price ∧
    ((n.ntype = NType.short_term ∨ n.ntype = NType.absolute) →
      ∃ i, lookup (checkPriceMovements now prices wl).watchlist n.coin_id = some i ∧
        i.short_term = ⟨some n.current_price, now⟩) ∧
    (n.ntype = NType.long_term →
      ∃ i, lookup (checkPriceMovements now prices wl).watchlist n.coin_id = some i ∧
        i.long_term = ⟨some n.current_price, now⟩) :=
  ⟨(tick_mem_key hn).2, fun hsc => tick_short_reset hnd hn hsc,
    fun hty => tick_long_reset hnd hn hty⟩

theorem C8_baseline_reset_witness :
    c8_prices c8_notif.coin_id = some c8_notif.current_price ∧
    ((c8_notif.ntype = NType.short_term ∨ c8_notif.ntype = NType.absolute) →
      ∃ i, lookup (checkPriceMovements 60 c8_prices c8_wl).watchlist c8_notif.coin_id =
          some i ∧ i.short_term = ⟨some c8_notif.current_price, 60⟩) ∧
    (c8_notif.ntype = NType.long_term →
      ∃ i, lookup (checkPriceMovements 60 c8_prices c8_wl).watchlist c8_notif.coin_id =
          some i ∧ i.long_term = ⟨some c8_notif.current_price, 60⟩) :=
  C8_baseline_reset 60 c8_prices (by with_unfolding_all decide)
    (by with_unfolding_all decide)

/-- C9: `add_coin` on a coin id already present in the stored watchlist
document returns `True` before the metadata lookup: the document and the
tokens map are untouched, no API call and no file write happen. -/
theorem C9_add_idempotent (es : List (ℕ × CoinInfo)) (tokens : List (ℕ × TokenInfo))
    (now : ℚ) (api : InfoApiResp) (cid : ℕ) (h : cid ∈ es.map Prod.fst) :
    add_coin (.parsed es) tokens now api cid =
      ⟨true, .parsed es, tokens, false, false, false⟩ := by
  unfold add_coin
  show (if cid ∈ es.map Prod.fst then
      ({ ok := true, doc := StoredDoc.parsed es, tokens := tokens, apiCalled := false,
         wroteWatchlist := false, wroteTokens := false } : AddCoinResult)
    else add_coin.viaApi es (StoredDoc.parsed es) tokens now api cid) = _
  rw [if_pos h]

theorem C9_add_idempotent_witness :
    add_coin (.parsed [(11, c9_entry)]) [] 2 InfoApiResp.apiError 11 =
      ⟨true, .parsed [(11, c9_entry)], [], false, false, false⟩ :=
  C9_add_idempotent [(11, c9_entry)] [] 2 InfoApiResp.apiError 11 (by simp)

/-- C10: a missing, empty, or unparseable stored watchlist document loads
as the empty watch-state; the tick then returns no notifications and
performs no write (the stored document is not overwritten). -/
theorem C10_corrupt_doc_safe :
    (∀ (now : ℚ) (prices : ℕ → Option ℚ),
      check_price_movements StoredDoc.missing now prices = ⟨[], none⟩) ∧
    (∀ (now : ℚ) (prices : ℕ → Option ℚ),
      check_price_movements StoredDoc.empty now prices = ⟨[], none⟩) ∧
    (∀ (now : ℚ) (prices : ℕ → Option ℚ),
      check_price_movements StoredDoc.invalidJson now prices = ⟨[], none⟩) ∧
    load_watchlist StoredDoc.missing = [] ∧
    load_watchlist StoredDoc.empty = [] ∧
    load_watchlist StoredDoc.invalidJson = [] :=
  ⟨fun _ _ => rfl, fun _ _ => rfl, fun _ _ => rfl, rfl, rfl, rfl⟩

end PriceMonitor
